import Mathlib

/-!
Verification of the `Ar_moleculardynamics` molecular-dynamics engine
(`src/moleculardynamics/Ar_moleculardynamics.cpp`).

The C++ code works on `double`s; the embedding models them as exact
rationals `ℚ`.  Two quantities of the source are irrational and are
therefore threaded through as abstract parameters:
  * `sq : ℚ → ℚ` stands for `std::sqrt`;
  * `c43 : ℚ` stands for `std::pow(2.0, 2.0 / 3.0)` used for the lattice
    constant.
The uniform random generator consumed by `MD_initVel` is modelled as an
injected stream `rnds : ℕ → Vec3` of raw draws (the spec itself treats the
random source as an injected capability).

The per-particle parallel arrays `X_`, `Y_`, `Z_` and the `atoms_` array of
`Atom` records (fields `f`, `r1`, `v`; the `r` and `p` lanes of the source
struct are never read or written by the engine) are modelled as a single
list of `Atom` records carrying `pos`, `r1`, `v`, `f`.  The `tbb`
parallel-for loops write disjoint per-index slots and are therefore
embedded as plain maps / folds over the list; the thread-local
`tbb::combinable` accumulators for potential energy and virial combine by
`+`, embedded as a sum.  `NumAtom_` is kept as its own field, assigned
where the source assigns it; the loops run over the atom list (the source
maintains `NumAtom_ == atoms_.size()` at all times).
-/

namespace ArMD

/-- Three doubles `(x, y, z)`; the fourth lane of the source's
`Eigen::Vector4d` is always zero padding. -/
abbrev Vec3 := ℚ × ℚ × ℚ

/-- One particle: force, previous position (`r1`), velocity, and the
current position (the source keeps positions in parallel arrays
`X_`, `Y_`, `Z_`). -/
structure Atom where
  f : Vec3
  r1 : Vec3
  v : Vec3
  pos : Vec3
deriving DecidableEq, Inhabited

/-- Ensemble selector of the source (`EnsembleType`). -/
inductive EnsembleType where
  | NVE
  | NVT
deriving DecidableEq, Inhabited

/-- Whole simulation state (the private fields of `Ar_moleculardynamics`). -/
structure MDState where
  atoms : List Atom
  Nc : ℕ
  NumAtom : ℕ
  lat : ℚ
  scale : ℚ
  periodiclen : ℚ
  MD_iter : ℕ
  t : ℚ
  ensemble : EnsembleType
  Tg : ℚ
  Tc : ℚ
  Uk : ℚ
  Up : ℚ
  Utot : ℚ
  virial : ℚ
deriving DecidableEq

/-- `FIRSTSCALE = 1.0`. -/
def FIRSTSCALE : ℚ := 1
/-- `FIRSTTEMP = 50.0`. -/
def FIRSTTEMP : ℚ := 50
/-- `ALPHA = 0.2`, the Woodcock scaling coefficient. -/
def ALPHA : ℚ := 0.2
/-- `DT = 0.001`, the time step. -/
def DT : ℚ := 0.001
/-- `KB = 1.3806488E-23`. -/
def KB : ℚ := 1.3806488e-23
/-- `YPSILON = 1.6540172624E-21`. -/
def YPSILON : ℚ := 1.6540172624e-21
/-- `dt2 = DT * DT`. -/
def dt2 : ℚ := DT * DT
/-- `rc_ = 2.5`, the cutoff radius. -/
def rc : ℚ := 2.5
/-- `rc2_ = rc_ * rc_`. -/
def rc2 : ℚ := rc * rc
/-- `rcm6_ = std::pow(rc_, -6.0)`. -/
def rcm6 : ℚ := rc ^ (-6 : ℤ)
/-- `rcm12_ = std::pow(rc_, -12.0)`. -/
def rcm12 : ℚ := rc ^ (-12 : ℤ)
/-- `Vrc_ = 4.0 * (rcm12_ - rcm6_)`, the potential shift at the cutoff. -/
def Vrc : ℚ := 4 * (rcm12 - rcm6)

/-- Squared norm `x*x + y*y + z*z` of a 3-vector (`squaredNorm` of the
source vectors, whose fourth lane is zero). -/
def normSq (a : Vec3) : ℚ := a.1 * a.1 + a.2.1 * a.2.1 + a.2.2 * a.2.2

/-! ### Periodic wrap (`Ar_moleculardynamics::periodic`) -/

/-- One axis of the periodic wrap: the coordinate `x` together with the
matching previous-position coordinate `r1x`.  Mirrors the
`if / else if` pair of the source. -/
def wrapAxis (L x r1x : ℚ) : ℚ × ℚ :=
  if x > L then (x - L, r1x - L)
  else if x < 0 then (x + L, r1x + L)
  else (x, r1x)

/-- Wrap one particle on all three axes (the axes are independent in the
source). -/
def periodicAtom (L : ℚ) (a : Atom) : Atom :=
  let px := wrapAxis L a.pos.1 a.r1.1
  let py := wrapAxis L a.pos.2.1 a.r1.2.1
  let pz := wrapAxis L a.pos.2.2 a.r1.2.2
  { a with pos := (px.1, py.1, pz.1), r1 := (px.2, py.2, pz.2) }

/-- `Ar_moleculardynamics::periodic`: re-image every particle. -/
def periodic (st : MDState) : MDState :=
  { st with atoms := st.atoms.map (periodicAtom st.periodiclen) }

/-! ### Force evaluation (`Ar_moleculardynamics::calcForces`) -/

/-- Loop values `-ncp_ .. ncp_` with `ncp_ = 3` of the image-shift loops. -/
def shiftVals : List ℤ := [-3, -2, -1, 0, 1, 2, 3]

/-- Displacement `d = pos[n] - (pos[m] + shift)` with shift
`(i·L, j·L, k·L)` — the `dx`, `dy`, `dz` of the source assembled into the
`r2vec` vector. -/
def dispVec (L : ℚ) (pn pm : Vec3) (i j k : ℤ) : Vec3 :=
  (pn.1 - (pm.1 + (i : ℚ) * L), pn.2.1 - (pm.2.1 + (j : ℚ) * L),
    pn.2.2 - (pm.2.2 + (k : ℚ) * L))

/-- Body of the innermost loop of `calcForces` for one (particle, image)
partner: the force increment on atom `n`, the potential-energy increment
and the virial increment, or zero if the partner is outside the cutoff. -/
def LJpair (sq : ℚ → ℚ) (L : ℚ) (pn pm : Vec3) (i j k : ℤ) : Vec3 × ℚ × ℚ :=
  let d := dispVec L pn pm i j k
  let r2 := normSq d
  if r2 ≤ rc2 then
    let r := sq r2
    let rm6 := 1 / (r2 * r2 * r2)
    let rm7 := rm6 / r
    let rm12 := rm6 * rm6
    let rm13 := rm12 / r
    let Fr := 48 * rm13 - 24 * rm7
    ((d.1 / r * Fr, d.2.1 / r * Fr, d.2.2 / r * Fr),
      0.5 * (4 * (rm12 - rm6) - Vrc), 0.5 * r * Fr)
  else ((0, 0, 0), 0, 0)

/-- The four nested accumulation loops of `calcForces` for one atom `n`:
over every partner `m` and every image shift `(i, j, k)`, skipping the
self-interaction `n == m && i == j == k == 0`. -/
def atomSum (sq : ℚ → ℚ) (L : ℚ) (ps : List Vec3) (n : ℕ) : Vec3 × ℚ × ℚ :=
  List.foldl (fun accm m =>
    List.foldl (fun acci i =>
      List.foldl (fun accj j =>
        List.foldl (fun acck k =>
          if n ≠ m ∨ i ≠ 0 ∨ j ≠ 0 ∨ k ≠ 0 then
            acck + LJpair sq L (ps.getD n 0) (ps.getD m 0) i j k
          else acck)
          accj shiftVals)
        acci shiftVals)
      accm shiftVals)
    ((0, 0, 0), 0, 0) (List.range ps.length)

/-- `Ar_moleculardynamics::calcForces`: every force is overwritten with its
freshly accumulated value (the source zeroes `atoms_[n].f` first), and the
thread-local partial sums of potential energy and virial are combined. -/
def calcForces (sq : ℚ → ℚ) (st : MDState) : MDState :=
  let ps := st.atoms.map (fun a => a.pos)
  { st with
    atoms := st.atoms.mapIdx (fun n a => { a with f := (atomSum sq st.periodiclen ps n).1 }),
    Up := ((List.range st.atoms.length).map (fun n => (atomSum sq st.periodiclen ps n).2.1)).sum,
    virial := ((List.range st.atoms.length).map (fun n => (atomSum sq st.periodiclen ps n).2.2)).sum }

/-! ### Integrator (`Ar_moleculardynamics::moveAtoms`) -/

/-- Kinetic energy `Uk_`: half the sum of the squared velocity norms. -/
def UkOf (st : MDState) : ℚ := 0.5 * ((st.atoms.map (fun a => normSq a.v)).sum)

/-- Computed temperature `Tc_ = Uk_ / (1.5 * NumAtom_)`. -/
def TcOf (st : MDState) : ℚ := UkOf st / (1.5 * (st.NumAtom : ℚ))

/-- Thermostat factor `s = sqrt((Tg_ + ALPHA * (Tc_ - Tg_)) / Tc_)`,
computed unconditionally at the head of `moveAtoms`. -/
def sFactor (sq : ℚ → ℚ) (st : MDState) : ℚ :=
  sq ((st.Tg + ALPHA * (TcOf st - st.Tg)) / TcOf st)

/-- First-step (modified Euler) update of one atom: save `r1`, scale the
velocity by `s`, advance the position with the scaled velocity, then add
the force impulse to the velocity. -/
def bootstrapAtom (s : ℚ) (a : Atom) : Atom :=
  let r1' := a.pos
  let v1 := s • a.v
  let pos' := (a.pos.1 + DT * v1.1 + 0.5 * a.f.1 * dt2,
               a.pos.2.1 + DT * v1.2.1 + 0.5 * a.f.2.1 * dt2,
               a.pos.2.2 + DT * v1.2.2 + 0.5 * a.f.2.2 * dt2)
  { a with r1 := r1', v := v1 + DT • a.f, pos := pos' }

/-- Verlet update of one atom (`MD_iter_ > 1`): snapshot the pre-update
position, advance by the NVE or NVT rule, recover the velocity from the
central difference, then store the snapshot into `r1`. -/
def verletAtom (e : EnsembleType) (s : ℚ) (a : Atom) : Atom :=
  let rtmp := a.pos
  let pos' :=
    match e with
    | .NVE => (2 * a.pos.1 - a.r1.1 + a.f.1 * dt2,
               2 * a.pos.2.1 - a.r1.2.1 + a.f.2.1 * dt2,
               2 * a.pos.2.2 - a.r1.2.2 + a.f.2.2 * dt2)
    | .NVT => (a.pos.1 + s * (a.pos.1 - a.r1.1) + a.f.1 * dt2,
               a.pos.2.1 + s * (a.pos.2.1 - a.r1.2.1) + a.f.2.1 * dt2,
               a.pos.2.2 + s * (a.pos.2.2 - a.r1.2.2) + a.f.2.2 * dt2)
  let v' := (0.5 * (pos'.1 - a.r1.1) / DT,
             0.5 * (pos'.2.1 - a.r1.2.1) / DT,
             0.5 * (pos'.2.2 - a.r1.2.2) / DT)
  { a with pos := pos', v := v', r1 := rtmp }

/-- `Ar_moleculardynamics::moveAtoms`: refresh `Uk_`, `Utot_`, `Tc_`,
compute the thermostat factor, then dispatch on `MD_iter_`. -/
def moveAtoms (sq : ℚ → ℚ) (st : MDState) : MDState :=
  { st with
    Uk := UkOf st,
    Utot := UkOf st + st.Up,
    Tc := TcOf st,
    atoms :=
      if st.MD_iter = 1 then st.atoms.map (bootstrapAtom (sFactor sq st))
      else st.atoms.map (verletAtom st.ensemble (sFactor sq st)) }

/-! ### Controller (`Ar_moleculardynamics::runCalc`) -/

/-- `Ar_moleculardynamics::runCalc`: forces, integration, wrap, then
`t_ = MD_iter_ * DT` followed by `MD_iter_++`. -/
def runCalc (sq : ℚ → ℚ) (st : MDState) : MDState :=
  let st3 := periodic (moveAtoms sq (calcForces sq st))
  { st3 with t := (st3.MD_iter : ℚ) * DT, MD_iter := st3.MD_iter + 1 }

/-! ### Initializers (`MD_initPos`, `MD_initVel`, `recalc`, setters) -/

/-- The four FCC basis atoms of one unit cell, in source order. -/
def cellBasis (lat sx sy sz : ℚ) : List Vec3 :=
  [(sx, sy, sz),
   (0.5 * lat + sx, 0.5 * lat + sy, sz),
   (sx, 0.5 * lat + sy, 0.5 * lat + sz),
   (0.5 * lat + sx, sy, 0.5 * lat + sz)]

/-- The triple placement loop of `MD_initPos`, before centering. -/
def fccPositions (Nc : ℕ) (lat : ℚ) : List Vec3 :=
  (List.range Nc).flatMap (fun i =>
    (List.range Nc).flatMap (fun j =>
      (List.range Nc).flatMap (fun k =>
        cellBasis lat ((i : ℚ) * lat) ((j : ℚ) * lat) ((k : ℚ) * lat))))

/-- `Ar_moleculardynamics::MD_initPos`: place `4·Nc³` atoms, set
`NumAtom_`, then subtract the per-axis centroid from every position. -/
def MD_initPos (st : MDState) : MDState :=
  let ps := fccPositions st.Nc st.lat
  let N := ps.length
  let sx := (ps.map (fun p => p.1)).sum / (N : ℚ)
  let sy := (ps.map (fun p => p.2.1)).sum / (N : ℚ)
  let sz := (ps.map (fun p => p.2.2)).sum / (N : ℚ)
  { st with
    NumAtom := N,
    atoms := ps.mapIdx (fun n p =>
      { st.atoms.getD n default with pos := (p.1 - sx, p.2.1 - sy, p.2.2 - sz) }) }

/-- `Ar_moleculardynamics::MD_initVel`: give every atom speed
`sqrt(3 * Tg_)` along a normalized random direction, then subtract the mean
velocity from every atom.  `rnds n` is the triple of raw uniform draws
consumed for atom `n`. -/
def MD_initVel (sq : ℚ → ℚ) (rnds : ℕ → Vec3) (st : MDState) : MDState :=
  let v := sq (3 * st.Tg)
  let raw := st.atoms.mapIdx (fun n a =>
    let rnd := rnds n
    let tmp := 1 / sq (normSq rnd)
    { a with v := v • (tmp • rnd) })
  let s := ((st.atoms.length : ℚ))⁻¹ • ((raw.map (fun a => a.v)).sum)
  { st with atoms := raw.map (fun a => { a with v := a.v - s }) }

/-- `Ar_moleculardynamics::recalc`: reset time and step counter, re-run
both initializers. -/
def recalc (sq : ℚ → ℚ) (rnds : ℕ → Vec3) (st : MDState) : MDState :=
  MD_initVel sq rnds (MD_initPos { st with t := 0, MD_iter := 1 })

/-- `Ar_moleculardynamics::ModLattice`: recompute `lat_`, re-initialize,
recompute `periodiclen_`. -/
def ModLattice (c43 : ℚ) (sq : ℚ → ℚ) (rnds : ℕ → Vec3) (st : MDState) : MDState :=
  let st1 := { st with lat := c43 * st.scale }
  let st2 := recalc sq rnds st1
  { st2 with periodiclen := st2.lat * (st2.Nc : ℚ) }

/-- Resize a list to length `n`, padding with `default` (models
`std::vector::resize`). -/
def listResize (l : List Atom) (n : ℕ) : List Atom :=
  (l ++ List.replicate n default).take n

/-- `Ar_moleculardynamics::setEnsemble`. -/
def setEnsemble (sq : ℚ → ℚ) (rnds : ℕ → Vec3) (e : EnsembleType) (st : MDState) : MDState :=
  recalc sq rnds { st with ensemble := e }

/-- `Ar_moleculardynamics::setNc`: store the new cell count, resize the
per-particle arrays, then `ModLattice`. -/
def setNc (c43 : ℚ) (sq : ℚ → ℚ) (rnds : ℕ → Vec3) (n : ℕ) (st : MDState) : MDState :=
  ModLattice c43 sq rnds { st with Nc := n, atoms := listResize st.atoms (n * n * n * 4) }

/-- `Ar_moleculardynamics::setScale`. -/
def setScale (c43 : ℚ) (sq : ℚ → ℚ) (rnds : ℕ → Vec3) (sc : ℚ) (st : MDState) : MDState :=
  ModLattice c43 sq rnds { st with scale := sc }

/-- `Ar_moleculardynamics::setTgiven`: only the target temperature
changes. -/
def setTgiven (T : ℚ) (st : MDState) : MDState :=
  { st with Tg := T * KB / YPSILON }

/-- The constructor `Ar_moleculardynamics::Ar_moleculardynamics`:
`Nc_ = 4`, `scale_ = 1`, NVT, `Tg_ = FIRSTTEMP * KB / YPSILON`,
`lat_ = c43 * scale_`, then `recalc()`, then
`periodiclen_ = lat_ * Nc_`. -/
def initState (c43 : ℚ) (sq : ℚ → ℚ) (rnds : ℕ → Vec3) : MDState :=
  let base : MDState :=
    { atoms := List.replicate (4 * 4 * 4 * 4) default,
      Nc := 4, NumAtom := 0,
      lat := c43 * FIRSTSCALE, scale := FIRSTSCALE, periodiclen := 0,
      MD_iter := 0, t := 0, ensemble := .NVT,
      Tg := FIRSTTEMP * KB / YPSILON,
      Tc := 0, Uk := 0, Up := 0, Utot := 0, virial := 0 }
  let st1 := recalc sq rnds base
  { st1 with periodiclen := st1.lat * (st1.Nc : ℚ) }

/-! ### Projection lemmas -/

@[simp] lemma periodic_periodiclen (st : MDState) : (periodic st).periodiclen = st.periodiclen := rfl

@[simp] lemma periodic_atoms (st : MDState) :
    (periodic st).atoms = st.atoms.map (periodicAtom st.periodiclen) := rfl

@[simp] lemma periodic_MD_iter (st : MDState) : (periodic st).MD_iter = st.MD_iter := rfl

@[simp] lemma periodic_t (st : MDState) : (periodic st).t = st.t := rfl

@[simp] lemma periodic_NumAtom (st : MDState) : (periodic st).NumAtom = st.NumAtom := rfl

@[simp] lemma calcForces_MD_iter (sq : ℚ → ℚ) (st : MDState) :
    (calcForces sq st).MD_iter = st.MD_iter := rfl

@[simp] lemma calcForces_t (sq : ℚ → ℚ) (st : MDState) : (calcForces sq st).t = st.t := rfl

@[simp] lemma calcForces_NumAtom (sq : ℚ → ℚ) (st : MDState) :
    (calcForces sq st).NumAtom = st.NumAtom := rfl

@[simp] lemma moveAtoms_MD_iter (sq : ℚ → ℚ) (st : MDState) :
    (moveAtoms sq st).MD_iter = st.MD_iter := rfl

@[simp] lemma moveAtoms_t (sq : ℚ → ℚ) (st : MDState) : (moveAtoms sq st).t = st.t := rfl

@[simp] lemma moveAtoms_NumAtom (sq : ℚ → ℚ) (st : MDState) :
    (moveAtoms sq st).NumAtom = st.NumAtom := rfl

@[simp] lemma runCalc_MD_iter (sq : ℚ → ℚ) (st : MDState) :
    (runCalc sq st).MD_iter = st.MD_iter + 1 := rfl

@[simp] lemma runCalc_t (sq : ℚ → ℚ) (st : MDState) :
    (runCalc sq st).t = (st.MD_iter : ℚ) * DT := rfl

@[simp] lemma runCalc_NumAtom (sq : ℚ → ℚ) (st : MDState) :
    (runCalc sq st).NumAtom = st.NumAtom := rfl

/-! ### Claim C7: the wrap preserves the one-step displacement -/

lemma periodicAtom_sub (L : ℚ) (a : Atom) :
    (periodicAtom L a).pos - (periodicAtom L a).r1 = a.pos - a.r1 := by
  simp only [periodicAtom, wrapAxis]
  split_ifs <;> simp [Prod.ext_iff, Prod.fst_sub, Prod.snd_sub]

/-- C7: for every particle and every axis, the Periodic Wrap leaves the
difference `position - previousPosition` unchanged, because whenever it
shifts a coordinate by `± periodicLength` it applies the same shift to the
corresponding axis of `previousPosition`. -/
theorem periodic_preserves_displacement (st : MDState) :
    (periodic st).atoms.map (fun a => a.pos - a.r1)
      = st.atoms.map (fun a => a.pos - a.r1) := by
  rw [periodic_atoms, List.map_map]
  refine List.map_congr_left (fun a _ => ?_)
  exact periodicAtom_sub st.periodiclen a

/-! ### Claim C6: wrap idempotence -/

/-- Concrete state witnessing that the wrap is not idempotent: one atom
sitting three box lengths out on the x axis. -/
def cexState6 : MDState :=
  { atoms := [{ f := (0, 0, 0), r1 := (0, 0, 0), v := (0, 0, 0), pos := (3, 0, 0) }],
    Nc := 1, NumAtom := 1, lat := 1, scale := 1, periodiclen := 1,
    MD_iter := 1, t := 0, ensemble := .NVT,
    Tg := 0, Tc := 0, Uk := 0, Up := 0, Utot := 0, virial := 0 }

/-- C6 (counterexample): applying the Periodic Wrap twice is not the same
as applying it once, for a particle further than one box length outside
the cell: `x = 3` with box length `1` wraps to `2`, then to `1`. -/
theorem periodic_not_idempotent_cex :
    periodic (periodic cexState6) ≠ periodic cexState6 := by
  have h1 : ((periodic cexState6).atoms.map (fun a => a.pos.1)) = [2] := by
    norm_num [periodic, periodicAtom, wrapAxis, cexState6]
  have h2 : ((periodic (periodic cexState6)).atoms.map (fun a => a.pos.1)) = [1] := by
    norm_num [periodic, periodicAtom, wrapAxis, cexState6]
  intro h
  rw [h, h1] at h2
  norm_num at h2

lemma wrapAxis_idem (L x r1x : ℚ) (_hL : 0 ≤ L) (h1 : -L ≤ x) (h2 : x ≤ 2 * L) :
    wrapAxis L (wrapAxis L x r1x).1 (wrapAxis L x r1x).2 = wrapAxis L x r1x := by
  unfold wrapAxis
  split_ifs <;> first | rfl | (exfalso; dsimp only at *; linarith)

lemma periodicAtom_idem (L : ℚ) (a : Atom) (hL : 0 ≤ L)
    (hx : -L ≤ a.pos.1 ∧ a.pos.1 ≤ 2 * L)
    (hy : -L ≤ a.pos.2.1 ∧ a.pos.2.1 ≤ 2 * L)
    (hz : -L ≤ a.pos.2.2 ∧ a.pos.2.2 ≤ 2 * L) :
    periodicAtom L (periodicAtom L a) = periodicAtom L a := by
  have ex := wrapAxis_idem L a.pos.1 a.r1.1 hL hx.1 hx.2
  have ey := wrapAxis_idem L a.pos.2.1 a.r1.2.1 hL hy.1 hy.2
  have ez := wrapAxis_idem L a.pos.2.2 a.r1.2.2 hL hz.1 hz.2
  simp only [periodicAtom]
  rw [ex, ey, ez]

/-- C6 (amended): the Periodic Wrap is idempotent on any state whose
coordinates all lie within one box length of the primary cell
(`-L ≤ x ≤ 2·L` on every axis, `L = periodicLength ≥ 0`); in general a
single call shifts a coordinate by at most one box length, so a particle
further out is moved again by the second call. -/
theorem periodic_idempotent_of_bounded (st : MDState) (hL : 0 ≤ st.periodiclen)
    (hb : ∀ a ∈ st.atoms,
      (-st.periodiclen ≤ a.pos.1 ∧ a.pos.1 ≤ 2 * st.periodiclen) ∧
      (-st.periodiclen ≤ a.pos.2.1 ∧ a.pos.2.1 ≤ 2 * st.periodiclen) ∧
      (-st.periodiclen ≤ a.pos.2.2 ∧ a.pos.2.2 ≤ 2 * st.periodiclen)) :
    periodic (periodic st) = periodic st := by
  have h : (periodic st).atoms.map (periodicAtom (periodic st).periodiclen)
      = (periodic st).atoms := by
    rw [periodic_periodiclen, periodic_atoms, List.map_map]
    refine List.map_congr_left (fun a ha => ?_)
    exact periodicAtom_idem st.periodiclen a hL (hb a ha).1 (hb a ha).2.1 (hb a ha).2.2
  show { periodic st with
      atoms := (periodic st).atoms.map (periodicAtom (periodic st).periodiclen) } = periodic st
  rw [h]

/-- Witness for C6 (amended): a one-atom state with coordinates inside
`[-L, 2L]` for `L = 1`. -/
theorem periodic_idempotent_of_bounded_witness :
    periodic (periodic { cexState6 with
        atoms := [{ f := (0, 0, 0), r1 := (0, 0, 0), v := (0, 0, 0),
                    pos := (3/2, -1/2, 1/2) }] })
      = periodic { cexState6 with
        atoms := [{ f := (0, 0, 0), r1 := (0, 0, 0), v := (0, 0, 0),
                    pos := (3/2, -1/2, 1/2) }] } :=
  periodic_idempotent_of_bounded _ (by norm_num [cexState6])
    (by intro a ha; simp [cexState6] at ha; subst ha; norm_num [cexState6])

/-! ### Claim C3: cutoff consistency of the potential energy -/

/-- Squared pair separation `|d|²` for partner `m` shifted by image
`(i, j, k)`, exactly the `r2` of `LJpair`. -/
def pairR2 (L : ℚ) (pn pm : Vec3) (i j k : ℤ) : ℚ :=
  normSq (dispVec L pn pm i j k)

/-- C3: a pair at or beyond the cutoff (`|d| ≥ rc`, i.e. `|d|² ≥ rc²`)
contributes exactly zero potential energy: beyond the cutoff the branch is
skipped, and exactly at the cutoff the shifted potential
`0.5 * (4 * (r⁻¹² - r⁻⁶) - Vrc)` vanishes because
`Vrc = 4 * (rc⁻¹² - rc⁻⁶)`. -/
theorem cutoff_potential_zero (sq : ℚ → ℚ) (L : ℚ) (pn pm : Vec3) (i j k : ℤ)
    (h : rc2 ≤ pairR2 L pn pm i j k) :
    (LJpair sq L pn pm i j k).2.1 = 0 := by
  simp only [pairR2] at h
  simp only [LJpair]
  split_ifs with hc
  · rw [le_antisymm hc h]
    norm_num [rc2, rc, Vrc, rcm12, rcm6]
  · rfl

/-- Witness for C3 at the separation `|d|² = 9 > rc² = 6.25`. -/
theorem cutoff_potential_zero_witness :
    rc2 ≤ pairR2 0 ((3 : ℚ), (0 : ℚ), (0 : ℚ)) ((0 : ℚ), (0 : ℚ), (0 : ℚ)) 0 0 0 ∧
      (LJpair id 0 ((3 : ℚ), (0 : ℚ), (0 : ℚ)) ((0 : ℚ), (0 : ℚ), (0 : ℚ)) 0 0 0).2.1 = 0 :=
  ⟨by norm_num [pairR2, normSq, dispVec, rc2, rc],
    cutoff_potential_zero id 0 _ _ 0 0 0 (by norm_num [pairR2, normSq, dispVec, rc2, rc])⟩

/-! ### List-sum helpers -/

lemma sum_map_sub {α V : Type} [AddCommGroup V] (l : List α) (g : α → V) (c : V) :
    (l.map (fun a => g a - c)).sum = (l.map g).sum - l.length • c := by
  induction l with
  | nil => simp
  | cons x xs ih =>
    simp only [List.map_cons, List.sum_cons, List.length_cons, ih, succ_nsmul]
    abel

lemma list_sum_fst {M N : Type} [AddMonoid M] [AddMonoid N] (l : List (M × N)) :
    l.sum.1 = (l.map Prod.fst).sum := by
  induction l with
  | nil => rfl
  | cons x xs ih => simp [ih]

lemma list_sum_snd {M N : Type} [AddMonoid M] [AddMonoid N] (l : List (M × N)) :
    l.sum.2 = (l.map Prod.snd).sum := by
  induction l with
  | nil => rfl
  | cons x xs ih => simp [ih]

/-- Small concrete state used by several witnesses: a single atom, first
step, NVE. -/
def miniState : MDState :=
  { atoms := [{ f := (0, 0, 0), r1 := (0, 0, 0), v := (0, 0, 0), pos := (0, 0, 0) }],
    Nc := 1, NumAtom := 1, lat := 1, scale := 1, periodiclen := 2,
    MD_iter := 1, t := 0, ensemble := .NVE,
    Tg := 0, Tc := 0, Uk := 0, Up := 0, Utot := 0, virial := 0 }

/-! ### Claim C2: the integrator is a state machine on `stepIndex` -/

/-- C2: `moveAtoms` maps every atom as follows.  On the bootstrap step
(`stepIndex = 1`) it saves `previousPosition = position`, scales the
velocity by the thermostat factor `s`, advances
`position += dt·velocity + 0.5·dt²·force` and `velocity += dt·force`.
On later steps it snapshots the pre-update position, advances by the NVE
rule `position = 2·position - previousPosition + force·dt²` or the NVT
rule `position += s·(position - previousPosition) + force·dt²`, sets
`velocity = 0.5·(position_new - previousPosition)/dt`, and stores the
snapshot into `previousPosition`. -/
theorem moveAtoms_state_machine (sq : ℚ → ℚ) (st : MDState) :
    (moveAtoms sq st).atoms = st.atoms.map (fun a =>
      if st.MD_iter = 1 then
        { a with r1 := a.pos,
                 v := sFactor sq st • a.v + DT • a.f,
                 pos := a.pos + DT • (sFactor sq st • a.v) + (0.5 * dt2) • a.f }
      else
        match st.ensemble with
        | .NVE =>
            { a with pos := (2 : ℚ) • a.pos - a.r1 + dt2 • a.f,
                     v := (0.5 / DT) • (((2 : ℚ) • a.pos - a.r1 + dt2 • a.f) - a.r1),
                     r1 := a.pos }
        | .NVT =>
            { a with pos := a.pos + sFactor sq st • (a.pos - a.r1) + dt2 • a.f,
                     v := (0.5 / DT) •
                       ((a.pos + sFactor sq st • (a.pos - a.r1) + dt2 • a.f) - a.r1),
                     r1 := a.pos }) := by
  by_cases h : st.MD_iter = 1
  · simp only [moveAtoms, h, if_pos]
    refine List.map_congr_left (fun a _ => ?_)
    simp only [bootstrapAtom, Atom.mk.injEq, Prod.ext_iff, Prod.smul_fst, Prod.smul_snd,
      Prod.fst_add, Prod.snd_add, smul_eq_mul]
    repeat' apply And.intro
    all_goals first | trivial | ring
  · simp only [moveAtoms, h, if_neg, if_false]
    refine List.map_congr_left (fun a _ => ?_)
    cases he : st.ensemble <;>
      · simp only [verletAtom, Atom.mk.injEq, Prod.ext_iff, Prod.smul_fst, Prod.smul_snd,
          Prod.fst_add, Prod.snd_add, Prod.fst_sub, Prod.snd_sub, smul_eq_mul]
        repeat' apply And.intro
        all_goals first | trivial | ring

/-! ### Claim C10: the thermostat factor is computed and applied even in
NVE bootstrap, dividing by the computed temperature -/

/-- C10: on every `moveAtoms` call the factor
`s = sqrt((Tg + 0.2·(Tc - Tg))/Tc)` divides by the computed temperature
`Tc = Uk/(1.5·N)`, whose value is zero whenever the kinetic energy is
zero — also in NVE mode; and on the bootstrap step with the NVE ensemble
every velocity still comes out multiplied by `s`. -/
theorem thermostat_in_NVE_bootstrap (sq : ℚ → ℚ) (st : MDState)
    (_hens : st.ensemble = .NVE) (hstep : st.MD_iter = 1) :
    (moveAtoms sq st).atoms.map (fun a => a.v)
        = st.atoms.map (fun a => sFactor sq st • a.v + DT • a.f)
      ∧ sFactor sq st = sq ((st.Tg + ALPHA * (TcOf st - st.Tg)) / TcOf st)
      ∧ (UkOf st = 0 → TcOf st = 0) := by
  refine ⟨?_, rfl, fun h => by simp [TcOf, h]⟩
  simp only [moveAtoms, hstep, if_pos]
  rw [List.map_map]
  exact List.map_congr_left (fun a _ => rfl)

/-- Witness for C10: a one-atom NVE state at the bootstrap step. -/
theorem thermostat_in_NVE_bootstrap_witness :
    (moveAtoms id miniState).atoms.map (fun a => a.v)
        = miniState.atoms.map (fun a => sFactor id miniState • a.v + DT • a.f)
      ∧ sFactor id miniState
          = id ((miniState.Tg + ALPHA * (TcOf miniState - miniState.Tg)) / TcOf miniState)
      ∧ (UkOf miniState = 0 → TcOf miniState = 0) :=
  thermostat_in_NVE_bootstrap id miniState rfl rfl

/-! ### Claim C9: lattice initializer count and centroid -/

lemma fccPositions_length (Nc : ℕ) (lat : ℚ) :
    (fccPositions Nc lat).length = 4 * Nc ^ 3 := by
  simp only [fccPositions, List.length_flatMap, Function.comp_def, cellBasis,
    List.length_cons, List.length_nil, List.map_const', List.length_range,
    List.sum_replicate, smul_eq_mul]
  ring

lemma map_mapIdx_eq {α β γ : Type} (l : List α) (f : ℕ → α → β) (g : β → γ) (h : α → γ)
    (hfg : ∀ n a, g (f n a) = h a) : (l.mapIdx f).map g = l.map h := by
  simp only [List.mapIdx_eq_enum_map, List.map_map]
  conv_rhs => rw [← List.enum_map_snd l, List.map_map]
  exact List.map_congr_left (fun x _ => hfg x.1 x.2)

lemma initPos_pos_map (st : MDState) :
    (MD_initPos st).atoms.map (fun a => a.pos)
      = (fccPositions st.Nc st.lat).map (fun p =>
          p - ((((fccPositions st.Nc st.lat).map (fun q => q.1)).sum
                  / ((fccPositions st.Nc st.lat).length : ℚ)),
               (((fccPositions st.Nc st.lat).map (fun q => q.2.1)).sum
                  / ((fccPositions st.Nc st.lat).length : ℚ)),
               (((fccPositions st.Nc st.lat).map (fun q => q.2.2)).sum
                  / ((fccPositions st.Nc st.lat).length : ℚ)))) := by
  simp only [MD_initPos]
  refine map_mapIdx_eq _ _ _ _ (fun n p => ?_)
  simp [Prod.ext_iff, Prod.fst_sub, Prod.snd_sub]

/-- C9: after `MD_initPos` with `Nc ≥ 1` the particle count is `4·Nc³`
and the positions sum to the zero vector (the centroid was subtracted
from every position), so the mean position is the origin. -/
theorem initPos_count_centroid (st : MDState) (h : 1 ≤ st.Nc) :
    (MD_initPos st).NumAtom = 4 * st.Nc ^ 3 ∧
      ((MD_initPos st).atoms.map (fun a => a.pos)).sum = (0 : Vec3) := by
  have hlen : (fccPositions st.Nc st.lat).length = 4 * st.Nc ^ 3 := fccPositions_length _ _
  have hN : ((fccPositions st.Nc st.lat).length : ℚ) ≠ 0 := by
    rw [hlen]
    have : st.Nc ≠ 0 := by omega
    simp [this]
  refine ⟨hlen, ?_⟩
  rw [initPos_pos_map, sum_map_sub _ (fun p => p) _]
  set ps := fccPositions st.Nc st.lat with hps
  have h1 : (ps.map (fun p => p)).sum = ps.sum := by simp
  rw [h1, ← Nat.cast_smul_eq_nsmul ℚ]
  have h2 : (ps.map (fun q => q.1)).sum = ps.sum.1 := (list_sum_fst ps).symm
  have h3 : (ps.map (fun q => q.2.1)).sum = ps.sum.2.1 := by
    rw [show (fun q : Vec3 => q.2.1) = Prod.fst ∘ Prod.snd from rfl, ← List.map_map,
      ← list_sum_fst, ← list_sum_snd]
  have h4 : (ps.map (fun q => q.2.2)).sum = ps.sum.2.2 := by
    rw [show (fun q : Vec3 => q.2.2) = Prod.snd ∘ Prod.snd from rfl, ← List.map_map,
      ← list_sum_snd, ← list_sum_snd]
  rw [h2, h3, h4]
  refine Prod.ext ?_ (Prod.ext ?_ ?_) <;>
    simp [Prod.smul_fst, Prod.smul_snd, Prod.fst_sub, Prod.snd_sub, smul_eq_mul] <;>
    field_simp

/-- Witness for C9 at `Nc = 1`. -/
theorem initPos_count_centroid_witness :
    (MD_initPos miniState).NumAtom = 4 * miniState.Nc ^ 3 ∧
      ((MD_initPos miniState).atoms.map (fun a => a.pos)).sum = (0 : Vec3) :=
  initPos_count_centroid miniState (by decide)

/-! ### Claim C4: zero net momentum after the velocity initializer -/

lemma initVel_sum_zero (sq : ℚ → ℚ) (rnds : ℕ → Vec3) (st : MDState)
    (h : st.atoms.length ≠ 0) :
    ((MD_initVel sq rnds st).atoms.map (fun a => a.v)).sum = (0 : Vec3) := by
  simp only [MD_initVel, List.map_map]
  rw [show ∀ c : Vec3, ((fun (a : Atom) => a.v) ∘ (fun a : Atom => { a with v := a.v - c }))
      = fun a : Atom => a.v - c from fun c => rfl]
  rw [sum_map_sub _ (fun a : Atom => a.v) _, List.length_mapIdx,
    ← Nat.cast_smul_eq_nsmul ℚ, smul_smul]
  rw [mul_inv_cancel₀ (by exact_mod_cast h)]
  rw [one_smul, sub_self]

/-- C4: for every cell count `Nc ≥ 1` (hence `4·Nc³ ≥ 1` particles),
every lattice scale and target temperature, and every injected random
stream, the velocities immediately after `MD_initVel` sum to the zero
vector: each velocity is `sqrt(3·Tg)` times a normalized random direction
and the mean velocity is then subtracted from every particle. -/
theorem initVel_momentum_zero (sq : ℚ → ℚ) (rnds : ℕ → Vec3) (st : MDState)
    (h : 1 ≤ st.Nc) :
    ((MD_initVel sq rnds (MD_initPos st)).atoms.map (fun a => a.v)).sum = (0 : Vec3) := by
  refine initVel_sum_zero sq rnds _ ?_
  have : (MD_initPos st).atoms.length = 4 * st.Nc ^ 3 := by
    simp only [MD_initPos, List.length_mapIdx]
    exact fccPositions_length _ _
  rw [this]
  have : st.Nc ≠ 0 := by omega
  positivity

/-- Witness for C4 at `Nc = 1` with a trivial random stream. -/
theorem initVel_momentum_zero_witness :
    ((MD_initVel id (fun _ => ((1 : ℚ), (1 : ℚ), (1 : ℚ)))
        (MD_initPos miniState)).atoms.map (fun a => a.v)).sum = (0 : Vec3) :=
  initVel_momentum_zero id (fun _ => ((1 : ℚ), (1 : ℚ), (1 : ℚ))) miniState (by decide)

/-! ### Claim C8: setter reinitialization behaviour -/

/-- C8: `setNc`, `setScale` and `setEnsemble` trigger a full
reinitialization (`stepIndex` reset to 1, `elapsedTime` reset to 0, the
lattice and velocity initializers re-run, which re-establishes
`particleCount = 4·Nc³`), while `setTgiven` changes only the target
temperature and leaves the atoms, `stepIndex` and `elapsedTime`
untouched; concretely, after `setNc 3` the particle count is 108 and
`stepIndex` is 1. -/
theorem setters_reinit_spec :
    (∀ (c43 : ℚ) (sq : ℚ → ℚ) (rnds : ℕ → Vec3) (n : ℕ) (st : MDState),
        (setNc c43 sq rnds n st).MD_iter = 1 ∧ (setNc c43 sq rnds n st).t = 0 ∧
          (setNc c43 sq rnds n st).NumAtom = 4 * n ^ 3) ∧
    (∀ (c43 : ℚ) (sq : ℚ → ℚ) (rnds : ℕ → Vec3) (sc : ℚ) (st : MDState),
        (setScale c43 sq rnds sc st).MD_iter = 1 ∧ (setScale c43 sq rnds sc st).t = 0 ∧
          (setScale c43 sq rnds sc st).NumAtom = 4 * st.Nc ^ 3) ∧
    (∀ (sq : ℚ → ℚ) (rnds : ℕ → Vec3) (e : EnsembleType) (st : MDState),
        (setEnsemble sq rnds e st).MD_iter = 1 ∧ (setEnsemble sq rnds e st).t = 0 ∧
          (setEnsemble sq rnds e st).ensemble = e) ∧
    (∀ (T : ℚ) (st : MDState),
        (setTgiven T st).atoms = st.atoms ∧ (setTgiven T st).MD_iter = st.MD_iter ∧
          (setTgiven T st).t = st.t ∧ (setTgiven T st).Tg = T * KB / YPSILON) ∧
    (∀ (c43 : ℚ) (sq : ℚ → ℚ) (rnds : ℕ → Vec3) (st : MDState),
        (setNc c43 sq rnds 3 st).NumAtom = 108 ∧ (setNc c43 sq rnds 3 st).MD_iter = 1) := by
  refine ⟨fun c43 sq rnds n st => ⟨rfl, rfl, ?_⟩,
          fun c43 sq rnds sc st => ⟨rfl, rfl, ?_⟩,
          fun sq rnds e st => ⟨rfl, rfl, rfl⟩,
          fun T st => ⟨rfl, rfl, rfl, rfl⟩,
          fun c43 sq rnds st => ⟨?_, rfl⟩⟩
  · show (fccPositions n (c43 * st.scale)).length = 4 * n ^ 3
    exact fccPositions_length _ _
  · show (fccPositions st.Nc (c43 * sc)).length = 4 * st.Nc ^ 3
    exact fccPositions_length _ _
  · show (fccPositions 3 (c43 * st.scale)).length = 4 * 3 ^ 3
    rw [fccPositions_length]

/-! ### Claim C5: step counter and elapsed time -/

/-- C5 (counterexample): after the first `runStep` from the default
construction, `stepIndex = 2` but `elapsedTime = dt ≠ 2·dt`, so the
post-step invariant `elapsedTime = stepIndex·dt` asserted by the claim is
false. -/
theorem runCalc_elapsed_time_cex :
    ¬ ((runCalc id (initState 2 id (fun _ => ((1 : ℚ), (1 : ℚ), (1 : ℚ))))).t
        = (((runCalc id (initState 2 id (fun _ => ((1 : ℚ), (1 : ℚ), (1 : ℚ))))).MD_iter : ℚ)
            * DT)) := by
  have h1 : (initState 2 id (fun _ => ((1 : ℚ), (1 : ℚ), (1 : ℚ)))).MD_iter = 1 := rfl
  rw [runCalc_t, runCalc_MD_iter, h1]
  norm_num [DT]

lemma iterate_runCalc_MD_iter (sq : ℚ → ℚ) (st : MDState) (k : ℕ) :
    ((fun s => runCalc sq s)^[k] st).MD_iter = st.MD_iter + k := by
  induction k with
  | zero => simp
  | succ n ih => rw [Function.iterate_succ_apply']; simp [ih]; omega

lemma iterate_runCalc_NumAtom (sq : ℚ → ℚ) (st : MDState) (k : ℕ) :
    ((fun s => runCalc sq s)^[k] st).NumAtom = st.NumAtom := by
  induction k with
  | zero => simp
  | succ n ih => rw [Function.iterate_succ_apply']; simp [ih]

/-- C5 (amended): `stepIndex` starts at 1 and each completed `runStep`
increments it by exactly 1, while `elapsedTime` is set to the
pre-increment `stepIndex` times `dt`, i.e. after a completed step
`elapsedTime = (stepIndex - 1)·dt` — the number of completed steps times
`dt`.  Concretely, from the default construction `stepIndex = 2` after the
first `runStep`, and after 10 `runStep` calls `elapsedTime = 10·dt = 0.01`
and `particleCount = 256`. -/
theorem runCalc_step_time_spec :
    (∀ (sq : ℚ → ℚ) (st : MDState),
        (runCalc sq st).MD_iter = st.MD_iter + 1 ∧
        (runCalc sq st).t = (st.MD_iter : ℚ) * DT ∧
        (runCalc sq st).NumAtom = st.NumAtom) ∧
    (∀ (c43 : ℚ) (sq : ℚ → ℚ) (rnds : ℕ → Vec3),
        (initState c43 sq rnds).MD_iter = 1 ∧
        (runCalc sq (initState c43 sq rnds)).MD_iter = 2 ∧
        ((fun s => runCalc sq s)^[10] (initState c43 sq rnds)).t = 10 * DT ∧
        (10 : ℚ) * DT = 1 / 100 ∧
        ((fun s => runCalc sq s)^[10] (initState c43 sq rnds)).NumAtom = 256) := by
  refine ⟨fun sq st => ⟨rfl, rfl, rfl⟩, fun c43 sq rnds => ⟨rfl, rfl, ?_, by norm_num [DT], ?_⟩⟩
  · rw [show (10 : ℕ) = 9 + 1 from rfl, Function.iterate_succ_apply', runCalc_t,
      iterate_runCalc_MD_iter]
    norm_num [show (initState c43 sq rnds).MD_iter = 1 from rfl]
  · rw [iterate_runCalc_NumAtom]
    show (fccPositions 4 (c43 * FIRSTSCALE)).length = 256
    rw [fccPositions_length]
    norm_num

/-! ### Claim C1: the force evaluator computes the pairwise image sum -/

/-- Squared separation of the pair `(n, m)` with image `(i, j, k)` in a
given state. -/
def stR2 (st : MDState) (n m : ℕ) (i j k : ℤ) : ℚ :=
  pairR2 st.periodiclen ((st.atoms.map (fun a => a.pos)).getD n 0)
    ((st.atoms.map (fun a => a.pos)).getD m 0) i j k

/-- Per-pair contribution exactly as the claim words it: skip
`n == m ∧ i = j = k = 0`; within the cutoff, with `r = sqrt(|d|²)`, add
force `(d/r)·Fr` with `Fr = 48·r⁻¹³ - 24·r⁻⁷`, potential energy
`0.5·(4·(r⁻¹² - r⁻⁶) - Vrc)` and virial `0.5·r·Fr`; otherwise nothing. -/
def specPairTerm (sq : ℚ → ℚ) (L : ℚ) (ps : List Vec3) (n m : ℕ) (i j k : ℤ) :
    Vec3 × ℚ × ℚ :=
  let pn := ps.getD n 0
  let pm := ps.getD m 0
  let d := dispVec L pn pm i j k
  let r2 := pairR2 L pn pm i j k
  if (n ≠ m ∨ i ≠ 0 ∨ j ≠ 0 ∨ k ≠ 0) ∧ r2 ≤ rc2 then
    let r := sq r2
    let Fr := 48 * r ^ (-13 : ℤ) - 24 * r ^ (-7 : ℤ)
    ((Fr / r) • d, 0.5 * (4 * (r ^ (-12 : ℤ) - r ^ (-6 : ℤ)) - Vrc), 0.5 * r * Fr)
  else 0

lemma pair_code_eq_spec (sq : ℚ → ℚ) (L : ℚ) (ps : List Vec3) (n m : ℕ) (i j k : ℤ)
    (hc : (n ≠ m ∨ i ≠ 0 ∨ j ≠ 0 ∨ k ≠ 0) →
      pairR2 L (ps.getD n 0) (ps.getD m 0) i j k ≤ rc2 →
      sq (pairR2 L (ps.getD n 0) (ps.getD m 0) i j k)
          * sq (pairR2 L (ps.getD n 0) (ps.getD m 0) i j k)
        = pairR2 L (ps.getD n 0) (ps.getD m 0) i j k
      ∧ sq (pairR2 L (ps.getD n 0) (ps.getD m 0) i j k) ≠ 0) :
    (if n ≠ m ∨ i ≠ 0 ∨ j ≠ 0 ∨ k ≠ 0 then
        LJpair sq L (ps.getD n 0) (ps.getD m 0) i j k
      else 0)
      = specPairTerm sq L ps n m i j k := by
  by_cases hskip : n ≠ m ∨ i ≠ 0 ∨ j ≠ 0 ∨ k ≠ 0
  · rw [if_pos hskip]
    simp only [specPairTerm, LJpair, pairR2]
    by_cases hcut : normSq (dispVec L (ps.getD n 0) (ps.getD m 0) i j k) ≤ rc2
    · obtain ⟨h1, h2⟩ := hc hskip hcut
      simp only [pairR2] at h1 h2
      rw [if_pos hcut, if_pos (And.intro hskip hcut)]
      set d := dispVec L (ps.getD n 0) (ps.getD m 0) i j k with hd
      set R := normSq d with hR
      set r := sq R with hr
      rw [← h1]
      simp only [Prod.ext_iff, Prod.smul_fst, Prod.smul_snd, smul_eq_mul]
      repeat' apply And.intro
      all_goals simp only [zpow_neg, zpow_ofNat]
      all_goals field_simp
      all_goals ring
    · rw [if_neg hcut, if_neg (fun h : _ ∧ _ => hcut h.2)]
      rfl
  · rw [if_neg hskip]
    simp only [specPairTerm]
    rw [if_neg (fun h : _ ∧ _ => hskip h.1)]

lemma foldl_add_general {M α : Type} [AddCommMonoid M] (F : M → α → M) (g : α → M)
    (hF : ∀ x y, F x y = x + g y) (l : List α) (a : M) :
    List.foldl F a l = a + (l.map g).sum := by
  induction l generalizing a with
  | nil => simp
  | cons x xs ih =>
    rw [List.foldl_cons, hF, ih, List.map_cons, List.sum_cons, add_assoc]

lemma range_map_sum {M : Type} [AddCommMonoid M] (g : ℕ → M) (n : ℕ) :
    ((List.range n).map g).sum = ∑ x ∈ Finset.range n, g x := by
  induction n with
  | zero => simp
  | succ m ih =>
    rw [List.range_succ, List.map_append, List.sum_append, Finset.sum_range_succ, ih]
    simp

lemma shift_map_sum {M : Type} [AddCommMonoid M] (g : ℤ → M) :
    (shiftVals.map g).sum = ∑ x ∈ Finset.Icc (-3 : ℤ) 3, g x := by
  rw [show Finset.Icc (-3 : ℤ) 3 = {-3, -2, -1, 0, 1, 2, 3} from by decide]
  rw [Finset.sum_insert (by decide), Finset.sum_insert (by decide),
    Finset.sum_insert (by decide), Finset.sum_insert (by decide),
    Finset.sum_insert (by decide), Finset.sum_insert (by decide),
    Finset.sum_singleton]
  simp [shiftVals]

lemma atomSum_eq_sum (sq : ℚ → ℚ) (L : ℚ) (ps : List Vec3) (n : ℕ) :
    atomSum sq L ps n
      = ∑ m ∈ Finset.range ps.length, ∑ i ∈ Finset.Icc (-3 : ℤ) 3,
          ∑ j ∈ Finset.Icc (-3 : ℤ) 3, ∑ k ∈ Finset.Icc (-3 : ℤ) 3,
          (if n ≠ m ∨ i ≠ 0 ∨ j ≠ 0 ∨ k ≠ 0 then
            LJpair sq L (ps.getD n 0) (ps.getD m 0) i j k
          else 0) := by
  have hk : ∀ (m : ℕ) (i j : ℤ) (a : Vec3 × ℚ × ℚ),
      List.foldl (fun acck k =>
          if n ≠ m ∨ i ≠ 0 ∨ j ≠ 0 ∨ k ≠ 0 then
            acck + LJpair sq L (ps.getD n 0) (ps.getD m 0) i j k
          else acck) a shiftVals
        = a + (shiftVals.map (fun k =>
            if n ≠ m ∨ i ≠ 0 ∨ j ≠ 0 ∨ k ≠ 0 then
              LJpair sq L (ps.getD n 0) (ps.getD m 0) i j k
            else 0)).sum := by
    intro m i j a
    refine foldl_add_general _ _ (fun x y => ?_) _ _
    split_ifs <;> simp
  have hj : ∀ (m : ℕ) (i : ℤ) (a : Vec3 × ℚ × ℚ),
      List.foldl (fun accj j =>
          List.foldl (fun acck k =>
            if n ≠ m ∨ i ≠ 0 ∨ j ≠ 0 ∨ k ≠ 0 then
              acck + LJpair sq L (ps.getD n 0) (ps.getD m 0) i j k
            else acck) accj shiftVals) a shiftVals
        = a + (shiftVals.map (fun j => (shiftVals.map (fun k =>
            if n ≠ m ∨ i ≠ 0 ∨ j ≠ 0 ∨ k ≠ 0 then
              LJpair sq L (ps.getD n 0) (ps.getD m 0) i j k
            else 0)).sum)).sum := by
    intro m i a
    exact foldl_add_general _ _ (fun x y => hk m i y x) _ _
  have hi : ∀ (m : ℕ) (a : Vec3 × ℚ × ℚ),
      List.foldl (fun acci i =>
          List.foldl (fun accj j =>
            List.foldl (fun acck k =>
              if n ≠ m ∨ i ≠ 0 ∨ j ≠ 0 ∨ k ≠ 0 then
                acck + LJpair sq L (ps.getD n 0) (ps.getD m 0) i j k
              else acck) accj shiftVals) acci shiftVals) a shiftVals
        = a + (shiftVals.map (fun i => (shiftVals.map (fun j => (shiftVals.map (fun k =>
            if n ≠ m ∨ i ≠ 0 ∨ j ≠ 0 ∨ k ≠ 0 then
              LJpair sq L (ps.getD n 0) (ps.getD m 0) i j k
            else 0)).sum)).sum)).sum := by
    intro m a
    exact foldl_add_general _ _ (fun x y => hj m y x) _ _
  have hm : atomSum sq L ps n
      = (((0, 0, 0), 0, 0) : Vec3 × ℚ × ℚ)
        + ((List.range ps.length).map (fun m =>
            (shiftVals.map (fun i => (shiftVals.map (fun j => (shiftVals.map (fun k =>
              if n ≠ m ∨ i ≠ 0 ∨ j ≠ 0 ∨ k ≠ 0 then
                LJpair sq L (ps.getD n 0) (ps.getD m 0) i j k
              else 0)).sum)).sum)).sum)).sum := by
    exact foldl_add_general _ _ (fun x y => hi y x) _ _
  rw [hm, show (((0, 0, 0), 0, 0) : Vec3 × ℚ × ℚ) = 0 from rfl, zero_add, range_map_sum]
  simp only [shift_map_sum]

lemma sumTriple_f {β : Type} (s : Finset β) (f : β → Vec3 × ℚ × ℚ) :
    (∑ x ∈ s, f x).1 = ∑ x ∈ s, (f x).1 :=
  map_sum (AddMonoidHom.fst Vec3 (ℚ × ℚ)) f s

lemma sumTriple_u {β : Type} (s : Finset β) (f : β → Vec3 × ℚ × ℚ) :
    (∑ x ∈ s, f x).2.1 = ∑ x ∈ s, (f x).2.1 :=
  map_sum ((AddMonoidHom.fst ℚ ℚ).comp (AddMonoidHom.snd Vec3 (ℚ × ℚ))) f s

lemma sumTriple_w {β : Type} (s : Finset β) (f : β → Vec3 × ℚ × ℚ) :
    (∑ x ∈ s, f x).2.2 = ∑ x ∈ s, (f x).2.2 :=
  map_sum ((AddMonoidHom.snd ℚ ℚ).comp (AddMonoidHom.snd Vec3 (ℚ × ℚ))) f s

lemma atomSum_spec (sq : ℚ → ℚ) (L : ℚ) (ps : List Vec3) (n : ℕ)
    (hc : ∀ m ∈ Finset.range ps.length, ∀ i ∈ Finset.Icc (-3 : ℤ) 3,
      ∀ j ∈ Finset.Icc (-3 : ℤ) 3, ∀ k ∈ Finset.Icc (-3 : ℤ) 3,
      (n ≠ m ∨ i ≠ 0 ∨ j ≠ 0 ∨ k ≠ 0) →
      pairR2 L (ps.getD n 0) (ps.getD m 0) i j k ≤ rc2 →
      sq (pairR2 L (ps.getD n 0) (ps.getD m 0) i j k)
          * sq (pairR2 L (ps.getD n 0) (ps.getD m 0) i j k)
        = pairR2 L (ps.getD n 0) (ps.getD m 0) i j k
      ∧ sq (pairR2 L (ps.getD n 0) (ps.getD m 0) i j k) ≠ 0) :
    atomSum sq L ps n
      = ∑ m ∈ Finset.range ps.length, ∑ i ∈ Finset.Icc (-3 : ℤ) 3,
          ∑ j ∈ Finset.Icc (-3 : ℤ) 3, ∑ k ∈ Finset.Icc (-3 : ℤ) 3,
          specPairTerm sq L ps n m i j k := by
  rw [atomSum_eq_sum]
  refine Finset.sum_congr rfl (fun m hm => Finset.sum_congr rfl (fun i hi =>
    Finset.sum_congr rfl (fun j hj => Finset.sum_congr rfl (fun k hk => ?_))))
  exact pair_code_eq_spec sq L ps n m i j k (hc m hm i hi j hj k hk)

lemma mapIdx_map_fst_eq {α β γ : Type} (l : List α) (f : ℕ → α → β) (g : β → γ)
    (F : ℕ → γ) (hfg : ∀ n a, g (f n a) = F n) :
    (l.mapIdx f).map g = (List.range l.length).map F := by
  simp only [List.mapIdx_eq_enum_map, List.map_map]
  conv_rhs => rw [← List.enum_map_fst l, List.map_map]
  exact List.map_congr_left (fun x _ => hfg x.1 x.2)

/-- C1: `calcForces` computes, for every particle `n`, the force as the
sum over every particle `m` and every image shift `(i, j, k)` in
`[-3, 3]³` — skipping only `n = m` with `i = j = k = 0` — of
`(d/r)·Fr` with `Fr = 48·r⁻¹³ - 24·r⁻⁷` for pairs with `|d|² ≤ rc²`, and
likewise accumulates `0.5·(4·(r⁻¹² - r⁻⁶) - Vrc)` into the potential
energy and `0.5·r·Fr` into the virial; pairs outside the cutoff
contribute nothing and the old forces are overwritten (zeroed at the
start).  The hypothesis states that the abstract `sq` behaves as a square
root on the squared separations actually reached within the cutoff. -/
theorem calcForces_pairwise_spec (sq : ℚ → ℚ) (st : MDState)
    (hsq : ∀ n ∈ Finset.range st.atoms.length, ∀ m ∈ Finset.range st.atoms.length,
      ∀ i ∈ Finset.Icc (-3 : ℤ) 3, ∀ j ∈ Finset.Icc (-3 : ℤ) 3, ∀ k ∈ Finset.Icc (-3 : ℤ) 3,
      (n ≠ m ∨ i ≠ 0 ∨ j ≠ 0 ∨ k ≠ 0) → stR2 st n m i j k ≤ rc2 →
      sq (stR2 st n m i j k) * sq (stR2 st n m i j k) = stR2 st n m i j k
        ∧ sq (stR2 st n m i j k) ≠ 0) :
    (calcForces sq st).atoms.map (fun a => a.f)
        = (List.range st.atoms.length).map (fun n =>
            ∑ m ∈ Finset.range st.atoms.length, ∑ i ∈ Finset.Icc (-3 : ℤ) 3,
              ∑ j ∈ Finset.Icc (-3 : ℤ) 3, ∑ k ∈ Finset.Icc (-3 : ℤ) 3,
              (specPairTerm sq st.periodiclen (st.atoms.map (fun a => a.pos)) n m i j k).1)
      ∧ (calcForces sq st).Up
        = ∑ n ∈ Finset.range st.atoms.length, ∑ m ∈ Finset.range st.atoms.length,
            ∑ i ∈ Finset.Icc (-3 : ℤ) 3, ∑ j ∈ Finset.Icc (-3 : ℤ) 3,
              ∑ k ∈ Finset.Icc (-3 : ℤ) 3,
              (specPairTerm sq st.periodiclen (st.atoms.map (fun a => a.pos)) n m i j k).2.1
      ∧ (calcForces sq st).virial
        = ∑ n ∈ Finset.range st.atoms.length, ∑ m ∈ Finset.range st.atoms.length,
            ∑ i ∈ Finset.Icc (-3 : ℤ) 3, ∑ j ∈ Finset.Icc (-3 : ℤ) 3,
              ∑ k ∈ Finset.Icc (-3 : ℤ) 3,
              (specPairTerm sq st.periodiclen (st.atoms.map (fun a => a.pos))
                  n m i j k).2.2 := by
  have hlen : (st.atoms.map (fun a => a.pos)).length = st.atoms.length :=
    List.length_map _ _
  have hAS : ∀ n ∈ Finset.range st.atoms.length,
      atomSum sq st.periodiclen (st.atoms.map (fun a => a.pos)) n
        = ∑ m ∈ Finset.range st.atoms.length, ∑ i ∈ Finset.Icc (-3 : ℤ) 3,
            ∑ j ∈ Finset.Icc (-3 : ℤ) 3, ∑ k ∈ Finset.Icc (-3 : ℤ) 3,
            specPairTerm sq st.periodiclen (st.atoms.map (fun a => a.pos)) n m i j k := by
    intro n hn
    rw [atomSum_spec sq st.periodiclen (st.atoms.map (fun a => a.pos)) n, hlen]
    rw [hlen]
    intro m hm i hi j hj k hk hskip hcut
    exact hsq n hn m hm i hi j hj k hk hskip hcut
  refine ⟨?_, ?_, ?_⟩
  · rw [show (calcForces sq st).atoms
        = st.atoms.mapIdx (fun n a =>
            { a with f := (atomSum sq st.periodiclen (st.atoms.map (fun a => a.pos)) n).1 })
      from rfl]
    rw [mapIdx_map_fst_eq st.atoms
      (fun n a =>
        { a with f := (atomSum sq st.periodiclen (st.atoms.map (fun a => a.pos)) n).1 })
      (fun a : Atom => a.f)
      (fun n => (atomSum sq st.periodiclen (st.atoms.map (fun a => a.pos)) n).1)
      (fun n a => rfl)]
    refine List.map_congr_left (fun n hn => ?_)
    rw [congrArg Prod.fst (hAS n (Finset.mem_range.mpr (List.mem_range.mp hn)))]
    simp only [sumTriple_f]
  · rw [show (calcForces sq st).Up
        = ((List.range st.atoms.length).map (fun n =>
            (atomSum sq st.periodiclen (st.atoms.map (fun a => a.pos)) n).2.1)).sum
      from rfl]
    rw [range_map_sum]
    refine Finset.sum_congr rfl (fun n hn => ?_)
    rw [congrArg (fun p => p.2.1) (hAS n hn)]
    simp only [sumTriple_u]
  · rw [show (calcForces sq st).virial
        = ((List.range st.atoms.length).map (fun n =>
            (atomSum sq st.periodiclen (st.atoms.map (fun a => a.pos)) n).2.2)).sum
      from rfl]
    rw [range_map_sum]
    refine Finset.sum_congr rfl (fun n hn => ?_)
    rw [congrArg (fun p => p.2.2) (hAS n hn)]
    simp only [sumTriple_w]

/-- Witness for C1: one atom in a box of length 2; the only image pairs
inside the cutoff sit at `|d|² = 4`, where `sq = const 2` is a genuine
square root. -/
theorem calcForces_pairwise_spec_witness :
    (calcForces (fun _ => 2) miniState).Up
      = ∑ n ∈ Finset.range miniState.atoms.length,
          ∑ m ∈ Finset.range miniState.atoms.length,
            ∑ i ∈ Finset.Icc (-3 : ℤ) 3, ∑ j ∈ Finset.Icc (-3 : ℤ) 3,
              ∑ k ∈ Finset.Icc (-3 : ℤ) 3,
              (specPairTerm (fun _ => 2) miniState.periodiclen
                  (miniState.atoms.map (fun a => a.pos)) n m i j k).2.1 :=
  (calcForces_pairwise_spec (fun _ => 2) miniState (by
    intro n hn m hm i hi j hj k hk hskip hcut
    have hn0 : n = 0 := by
      have h := Finset.mem_range.mp hn
      simp only [miniState, List.length_cons, List.length_nil] at h
      omega
    have hm0 : m = 0 := by
      have h := Finset.mem_range.mp hm
      simp only [miniState, List.length_cons, List.length_nil] at h
      omega
    subst hn0; subst hm0
    have hv : stR2 miniState 0 0 i j k = 4 * ((i ^ 2 + j ^ 2 + k ^ 2 : ℤ) : ℚ) := by
      simp [stR2, pairR2, normSq, dispVec, miniState]
      ring
    rw [hv] at hcut ⊢
    have hges : 1 ≤ i ^ 2 + j ^ 2 + k ^ 2 := by
      rcases hskip with h | h | h | h
      · exact absurd rfl h
      · rcases h.lt_or_lt with hlt | hgt <;> nlinarith [sq_nonneg j, sq_nonneg k]
      · rcases h.lt_or_lt with hlt | hgt <;> nlinarith [sq_nonneg i, sq_nonneg k]
      · rcases h.lt_or_lt with hlt | hgt <;> nlinarith [sq_nonneg i, sq_nonneg j]
    have hs1 : i ^ 2 + j ^ 2 + k ^ 2 ≤ 1 := by
      by_contra hgt
      push_neg at hgt
      have h2 : (2 : ℚ) ≤ ((i ^ 2 + j ^ 2 + k ^ 2 : ℤ) : ℚ) := by exact_mod_cast hgt
      rw [show rc2 = 25 / 4 from by norm_num [rc2, rc]] at hcut
      linarith
    rw [le_antisymm hs1 hges]
    norm_num)).2.1

end ArMD
